import Mathlib

/-!
Verification of the medassist server core.

We shallowly embed the Python sources `src/server/app.py` and
`src/server/create_db.py`.  Python strings are modelled as lists of
characters (`Text`); Python's `str.lower` is modelled for ASCII text by
`lowerChar`; the external HTTP services are modelled by passing their parsed
responses (`Option (List Article)`, `none` = the request raised and was
caught) as explicit arguments.
-/

set_option linter.unusedVariables false

namespace MedAssist

/-- Python strings, modelled as lists of characters. -/
abbrev Text := List Char

/-- ASCII upper/lower case letter pairs. -/
def upperLowerPairs : List (Char × Char) :=
  [('A', 'a'), ('B', 'b'), ('C', 'c'), ('D', 'd'), ('E', 'e'), ('F', 'f'),
   ('G', 'g'), ('H', 'h'), ('I', 'i'), ('J', 'j'), ('K', 'k'), ('L', 'l'),
   ('M', 'm'), ('N', 'n'), ('O', 'o'), ('P', 'p'), ('Q', 'q'), ('R', 'r'),
   ('S', 's'), ('T', 't'), ('U', 'u'), ('V', 'v'), ('W', 'w'), ('X', 'x'),
   ('Y', 'y'), ('Z', 'z')]

/-- `str.lower` on a single character (ASCII model). -/
def lowerChar (c : Char) : Char :=
  match upperLowerPairs.find? (fun p => p.1 = c) with
  | some p => p.2
  | none => c

/-- Python `s.lower()` (ASCII model). -/
def lower (t : Text) : Text := t.map lowerChar

/-- `c` is an ASCII upper-case letter. -/
def isUpperAscii (c : Char) : Bool := upperLowerPairs.any (fun p => p.1 = c)

/-- Python whitespace characters recognised by `str.strip()`. -/
def isSpaceChar (c : Char) : Bool := c ∈ [' ', '\t', '\n', '\r', '\x0b', '\x0c']

def trimLeft (t : Text) : Text := t.dropWhile isSpaceChar

def trimRight (t : Text) : Text := (t.reverse.dropWhile isSpaceChar).reverse

/-- Python `s.strip()`. -/
def trim (t : Text) : Text := trimRight (trimLeft t)

/-- Python substring test `p in t`. -/
def isSubstr (p t : Text) : Bool := t.tails.any (fun s => p.isPrefixOf s)

/-! ## Bibliographic search (`src/server/app.py`, `search_similar_articles`) -/

/-- One parsed article record, as built from a service response
(`src/server/app.py` lines 157-161, 179-183, 206-215). -/
structure Article where
  title : Text
  authors : Text
  link : Text
  deriving DecidableEq, Repr

/-- The dedup identity key: `article["title"].lower().strip()`
(`src/server/app.py` line 141). -/
def titleKey (t : Text) : Text := trim (lower t)

/-- The second disjunct of the skip test at `src/server/app.py` line 143:
`uploaded_title and uploaded_title.lower().strip() in title_lower`.
`none` models the Python default `uploaded_title=None`. -/
def uploadExcluded (uploaded : Option Text) (k : Text) : Bool :=
  match uploaded with
  | none => false
  | some u => !u.isEmpty && isSubstr (titleKey u) k

/-- The inner helper `add_unique_articles` (`src/server/app.py` lines 139-147),
with the captured mutable state `(seen_titles, all_articles)` made explicit.
`seen_titles` is kept as a list used as a set. -/
def add_unique_articles (uploaded : Option Text) :
    List Article → List Text × List Article → List Text × List Article
  | [], st => st
  | a :: rest, (seen, acc) =>
    let k := titleKey a.title
    if k ∈ seen ∨ uploadExcluded uploaded k then
      add_unique_articles uploaded rest (seen, acc)
    else
      add_unique_articles uploaded rest (k :: seen, acc ++ [a])

/-- Guard at `src/server/app.py` line 131:
`not keywords or not any(k.strip() for k in keywords)`. -/
def noValidKeywords (keywords : List Text) : Bool :=
  keywords.all (fun k => (trim k).isEmpty)

/-- `search_similar_articles` (`src/server/app.py` lines 129-222).  The three
HTTP passes (Semantic Scholar AND, Semantic Scholar OR, PubMed) are modelled
by their parsed article lists; `none` models a request that raised and was
caught (that source contributes nothing). -/
def search_similar_articles (keywords : List Text) (uploaded : Option Text)
    (andResp orResp pubResp : Option (List Article)) : List Article :=
  if noValidKeywords keywords then [] else
  let st1 := match andResp with
    | some arts => add_unique_articles uploaded arts ([], [])
    | none => ([], [])
  if 5 ≤ st1.2.length then st1.2.take 5 else
  let st2 := match orResp with
    | some arts => add_unique_articles uploaded arts st1
    | none => st1
  if 5 ≤ st2.2.length then st2.2.take 5 else
  let st3 := match pubResp with
    | some arts => add_unique_articles uploaded arts st2
    | none => st2
  if 5 ≤ st3.2.length then st3.2.take 5 else st3.2

/-- The similar-article search performed by the upload endpoint
(`src/server/app.py` lines 311-322): the title is extracted at line 312 but
`search_similar_articles(keywords)` at line 322 is called without it, so the
`uploaded_title` parameter is `None`.  The `title` argument records that the
title was known at the call site; the body does not use it, exactly as in the
source. -/
def handle_upload_similar_articles (title : Text) (keywords : List Text)
    (andResp orResp pubResp : Option (List Article)) : List Article :=
  if keywords.isEmpty then []
  else search_similar_articles keywords none andResp orResp pubResp

/-! ### Lemmas about `add_unique_articles` -/

/-- Distinct identity keys: no two accumulated articles share a key. -/
def DistinctKeys (l : List Article) : Prop :=
  l.Pairwise (fun a b => titleKey a.title ≠ titleKey b.title)

theorem add_unique_resp (u : Option Text) (o : Option (List Article))
    (st : List Text × List Article) :
    (match o with
      | some arts => add_unique_articles u arts st
      | none => st) = add_unique_articles u (o.getD []) st := by
  cases o with
  | none => cases st; rfl
  | some arts => rfl

theorem add_unique_append (u : Option Text) (l1 l2 : List Article) :
    ∀ st, add_unique_articles u (l1 ++ l2) st =
      add_unique_articles u l2 (add_unique_articles u l1 st) := by
  induction l1 with
  | nil => intro st; cases st; rfl
  | cons a rest ih =>
    intro st
    cases st with
    | mk seen acc =>
      simp only [List.cons_append, add_unique_articles]
      split
      · exact ih _
      · exact ih _

theorem add_unique_inv (u : Option Text) :
    ∀ (arts : List Article) (seen : List Text) (acc : List Article),
      (∀ a ∈ acc, titleKey a.title ∈ seen) → DistinctKeys acc →
      (∀ a ∈ (add_unique_articles u arts (seen, acc)).2,
          titleKey a.title ∈ (add_unique_articles u arts (seen, acc)).1) ∧
        DistinctKeys (add_unique_articles u arts (seen, acc)).2 := by
  intro arts
  induction arts with
  | nil => intro seen acc h1 h2; exact ⟨h1, h2⟩
  | cons a rest ih =>
    intro seen acc h1 h2
    simp only [add_unique_articles]
    split
    · exact ih seen acc h1 h2
    · rename_i hskip
      apply ih
      · intro b hb
        rcases List.mem_append.mp hb with hb | hb
        · exact List.mem_cons_of_mem _ (h1 b hb)
        · rcases List.mem_singleton.mp hb with rfl
          exact List.mem_cons_self _ _
      · rw [DistinctKeys, List.pairwise_append]
        refine ⟨h2, List.pairwise_singleton _ _, ?_⟩
        intro b hb c hc
        rcases List.mem_singleton.mp hc with rfl
        intro heq
        exact hskip (Or.inl (heq ▸ h1 b hb))

theorem add_unique_first (u : Option Text) :
    ∀ (arts : List Article) (seen : List Text) (acc : List Article),
      ∀ a ∈ (add_unique_articles u arts (seen, acc)).2,
        a ∈ acc ∨
          (titleKey a.title ∉ seen ∧
           uploadExcluded u (titleKey a.title) = false ∧
           ∃ l1 l2, arts = l1 ++ a :: l2 ∧
             ∀ b ∈ l1, titleKey b.title ≠ titleKey a.title) := by
  intro arts
  induction arts with
  | nil => intro seen acc a ha; exact Or.inl ha
  | cons a0 rest ih =>
    intro seen acc a ha
    simp only [add_unique_articles] at ha
    by_cases hskip : titleKey a0.title ∈ seen ∨ uploadExcluded u (titleKey a0.title)
    · rw [if_pos hskip] at ha
      rcases ih seen acc a ha with h | ⟨hs, hexcl, l1, l2, hdec, hfst⟩
      · exact Or.inl h
      · refine Or.inr ⟨hs, hexcl, a0 :: l1, l2, by rw [hdec]; rfl, ?_⟩
        intro b hb
        rcases List.mem_cons.mp hb with rfl | hb
        · intro heq
          rcases hskip with hk | hk
          · exact hs (heq ▸ hk)
          · rw [heq] at hk
            rw [hexcl] at hk
            exact Bool.false_ne_true hk
        · exact hfst b hb
    · rw [if_neg hskip] at ha
      push_neg at hskip
      rcases ih _ _ a ha with h | ⟨hs, hexcl, l1, l2, hdec, hfst⟩
      · rcases List.mem_append.mp h with h | h
        · exact Or.inl h
        · rcases List.mem_singleton.mp h with rfl
          refine Or.inr ⟨hskip.1, ?_, [], rest, rfl, by intro b hb; cases hb⟩
          simpa using hskip.2
      · have hs0 : titleKey a.title ≠ titleKey a0.title := by
          intro heq
          exact hs (by rw [heq]; exact List.mem_cons_self _ _)
        refine Or.inr ⟨fun hmem => hs (List.mem_cons_of_mem _ hmem), hexcl,
          a0 :: l1, l2, by rw [hdec]; rfl, ?_⟩
        intro b hb
        rcases List.mem_cons.mp hb with rfl | hb
        · exact fun heq => hs0 heq.symm
        · exact hfst b hb

/-! ### Stage view of the cascade -/

/-- Deduplication state after the Semantic Scholar AND pass. -/
def stage1 (u : Option Text) (a : Option (List Article)) :
    List Text × List Article :=
  add_unique_articles u (a.getD []) ([], [])

/-- Deduplication state after the Semantic Scholar OR pass. -/
def stage2 (u : Option Text) (a o : Option (List Article)) :
    List Text × List Article :=
  add_unique_articles u (o.getD []) (stage1 u a)

/-- Deduplication state after the PubMed pass. -/
def stage3 (u : Option Text) (a o p : Option (List Article)) :
    List Text × List Article :=
  add_unique_articles u (p.getD []) (stage2 u a o)

theorem search_eq (kws : List Text) (u : Option Text)
    (a o p : Option (List Article)) :
    search_similar_articles kws u a o p =
      if noValidKeywords kws then [] else
      if 5 ≤ (stage1 u a).2.length then (stage1 u a).2.take 5 else
      if 5 ≤ (stage2 u a o).2.length then (stage2 u a o).2.take 5 else
      if 5 ≤ (stage3 u a o p).2.length then (stage3 u a o p).2.take 5 else
      (stage3 u a o p).2 := by
  cases a <;> cases o <;> cases p <;> rfl

theorem stage2_eq (u : Option Text) (a o : Option (List Article)) :
    stage2 u a o = add_unique_articles u (a.getD [] ++ o.getD []) ([], []) := by
  rw [stage2, stage1, add_unique_append]

theorem stage3_eq (u : Option Text) (a o p : Option (List Article)) :
    stage3 u a o p =
      add_unique_articles u (a.getD [] ++ o.getD [] ++ p.getD []) ([], []) := by
  rw [stage3, stage2_eq, ← add_unique_append]

theorem add_unique_init_distinct (u : Option Text) (arts : List Article) :
    DistinctKeys (add_unique_articles u arts ([], [])).2 :=
  (add_unique_inv u arts [] [] (by intro a ha; cases ha) (List.Pairwise.nil)).2

theorem add_unique_init_first (u : Option Text) (arts : List Article) :
    ∀ a ∈ (add_unique_articles u arts ([], [])).2,
      ∃ l1 l2, arts = l1 ++ a :: l2 ∧
        ∀ b ∈ l1, titleKey b.title ≠ titleKey a.title := by
  intro a ha
  rcases add_unique_first u arts [] [] a ha with h | ⟨_, _, l1, l2, hdec, hfst⟩
  · cases h
  · exact ⟨l1, l2, hdec, hfst⟩

/-- C2: no two articles returned by `search_similar_articles` share an
identity key (lower-cased, trimmed title), and each returned article is the
first occurrence of its identity key in the iteration order: Semantic
Scholar AND pass, then Semantic Scholar OR pass, then PubMed. -/
theorem search_similar_articles_dedup_first_wins (kws : List Text)
    (u : Option Text) (a o p : Option (List Article)) :
    DistinctKeys (search_similar_articles kws u a o p) ∧
    ∀ x ∈ search_similar_articles kws u a o p,
      ∃ l1 l2, a.getD [] ++ o.getD [] ++ p.getD [] = l1 ++ x :: l2 ∧
        ∀ b ∈ l1, titleKey b.title ≠ titleKey x.title := by
  rw [search_eq]
  split
  · exact ⟨List.Pairwise.nil, by intro x hx; cases hx⟩
  split
  · refine ⟨(add_unique_init_distinct u _).sublist (List.take_sublist _ _), ?_⟩
    intro x hx
    rcases add_unique_init_first u (a.getD []) x (List.mem_of_mem_take hx)
      with ⟨l1, l2, hdec, hfst⟩
    exact ⟨l1, l2 ++ o.getD [] ++ p.getD [],
      by rw [hdec]; simp [List.append_assoc], hfst⟩
  split
  · rw [stage2_eq]
    refine ⟨(add_unique_init_distinct u _).sublist (List.take_sublist _ _), ?_⟩
    intro x hx
    rcases add_unique_init_first u (a.getD [] ++ o.getD []) x
      (List.mem_of_mem_take hx) with ⟨l1, l2, hdec, hfst⟩
    exact ⟨l1, l2 ++ p.getD [],
      by rw [hdec]; simp [List.append_assoc], hfst⟩
  split
  · rw [stage3_eq]
    refine ⟨(add_unique_init_distinct u _).sublist (List.take_sublist _ _), ?_⟩
    intro x hx
    exact add_unique_init_first u _ x (List.mem_of_mem_take hx)
  · rw [stage3_eq]
    exact ⟨add_unique_init_distinct u _, add_unique_init_first u _⟩

/-- Sample article: title differing from `sampleB` only in case and
surrounding whitespace. -/
def sampleA : Article := ⟨"Sepsis Care".toList, "X Y".toList, "L1".toList⟩

def sampleB : Article := ⟨"  SEPSIS CARE ".toList, "Z W".toList, "L2".toList⟩

/-- Witness for C2 at a concrete input: two candidates whose titles differ
only in case and whitespace; only the first survives. -/
theorem search_similar_articles_dedup_first_wins_witness :
    DistinctKeys
      (search_similar_articles ["sepsis".toList] none (some [sampleA, sampleB])
        none none) ∧
    ∃ l1 l2,
      ([sampleA, sampleB] : List Article) ++ [] ++ [] = l1 ++ sampleA :: l2 ∧
        ∀ b ∈ l1, titleKey b.title ≠ titleKey sampleA.title :=
  ⟨(search_similar_articles_dedup_first_wins ["sepsis".toList] none
      (some [sampleA, sampleB]) none none).1,
   (search_similar_articles_dedup_first_wins ["sepsis".toList] none
      (some [sampleA, sampleB]) none none).2 sampleA (by decide)⟩

/-! ### C3: the uploaded title is not forwarded by the upload endpoint -/

def sepsisTitle : Text := "Deep Learning for Sepsis".toList

def icuArticle : Article :=
  ⟨"Deep Learning for Sepsis Prediction in ICU".toList, "A B".toList,
   "http".toList⟩

/-- C3 evaluation at the failing input: `handle_upload` knows the uploaded
title "Deep Learning for Sepsis" but calls `search_similar_articles(keywords)`
without it (`src/server/app.py` line 322), so the candidate
"Deep Learning for Sepsis Prediction in ICU" — whose identity key contains
the uploaded title's identity key as a substring — is returned, not excluded.
Had the title been forwarded, the same candidate would have been excluded. -/
theorem handle_upload_includes_uploaded_title_superstring :
    handle_upload_similar_articles sepsisTitle ["sepsis".toList]
        (some [icuArticle]) none none = [icuArticle] ∧
    isSubstr (titleKey sepsisTitle) (titleKey icuArticle.title) = true ∧
    search_similar_articles ["sepsis".toList] (some sepsisTitle)
        (some [icuArticle]) none none = [] := by
  decide

/-! ### C4: the early-exit cascade -/

/-- Five articles with pairwise distinct identity keys. -/
def fiveArticles : List Article :=
  [⟨"t1".toList, [], []⟩, ⟨"t2".toList, [], []⟩, ⟨"t3".toList, [], []⟩,
   ⟨"t4".toList, [], []⟩, ⟨"t5".toList, [], []⟩]

/-- C4 counterexample: the keyword list `[" "]` is non-empty, yet
`search_similar_articles` returns `[]` without running any pass, even though
the AND pass would have accumulated 5 unique articles — contradicting the
claim that for every non-empty keyword list the AND pass runs and 5
accumulated unique articles are returned. -/
theorem search_blank_keywords_counterexample :
    search_similar_articles [[' ']] none (some fiveArticles) none none = []
      ∧ [[' ']] ≠ ([] : List Text)
      ∧ (stage1 none (some fiveArticles)).2.take 5 = fiveArticles := by
  decide

/-- C4 (amended): for every keyword list containing at least one keyword that
is non-blank after trimming, `search_similar_articles` returns at most 5
articles and follows the early-exit cascade: if the AND pass accumulates 5 or
more unique articles, the first 5 are returned and the result does not depend
on the OR-pass or PubMed responses; otherwise, if the OR pass reaches 5, the
first 5 are returned independently of the PubMed response; otherwise the
PubMed stage decides the result. -/
theorem search_cascade (kws : List Text) (u : Option Text)
    (a o p : Option (List Article))
    (hkw : noValidKeywords kws = false) :
    (search_similar_articles kws u a o p).length ≤ 5 ∧
    (5 ≤ (stage1 u a).2.length →
      ∀ o' p', search_similar_articles kws u a o' p' =
        (stage1 u a).2.take 5) ∧
    ((stage1 u a).2.length < 5 → 5 ≤ (stage2 u a o).2.length →
      ∀ p', search_similar_articles kws u a o p' =
        (stage2 u a o).2.take 5) ∧
    ((stage1 u a).2.length < 5 → (stage2 u a o).2.length < 5 →
      search_similar_articles kws u a o p =
        if 5 ≤ (stage3 u a o p).2.length then (stage3 u a o p).2.take 5
        else (stage3 u a o p).2) := by
  refine ⟨?_, ?_, ?_, ?_⟩
  · rw [search_eq, hkw]
    simp only [Bool.false_eq_true, if_false]
    split
    · exact le_trans (List.length_take_le _ _) (le_refl 5)
    split
    · exact le_trans (List.length_take_le _ _) (le_refl 5)
    split
    · exact le_trans (List.length_take_le _ _) (le_refl 5)
    · omega
  · intro h5 o' p'
    rw [search_eq, hkw]
    simp only [Bool.false_eq_true, if_false]
    rw [if_pos h5]
  · intro h1 h2 p'
    rw [search_eq, hkw]
    simp only [Bool.false_eq_true, if_false]
    rw [if_neg (by omega), if_pos h2]
  · intro h1 h2
    rw [search_eq, hkw]
    simp only [Bool.false_eq_true, if_false]
    rw [if_neg (by omega), if_neg (by omega)]

/-- Witness for C4 at a concrete input: with keyword "a" and an AND pass
returning 5 unique articles, the result is those 5 articles regardless of the
other passes, and has length at most 5. -/
theorem search_cascade_witness :
    (search_similar_articles [['a']] none (some fiveArticles) none
        none).length ≤ 5 ∧
    search_similar_articles [['a']] none (some fiveArticles)
        (some [sampleA]) (some [sampleB]) =
      (stage1 none (some fiveArticles)).2.take 5 :=
  ⟨(search_cascade [['a']] none (some fiveArticles) none none (by decide)).1,
   (search_cascade [['a']] none (some fiveArticles) none none
      (by decide)).2.1 (by decide) (some [sampleA]) (some [sampleB])⟩

/-! ## Index deletion (`src/server/create_db.py`, `safe_delete_chroma`) -/

/-- Linux errno for "operation not permitted". -/
def EPERM : Nat := 1

/-- Linux errno for "permission denied". -/
def EACCES : Nat := 13

/-- Linux errno for "device or resource busy". -/
def EBUSY : Nat := 16

/-- The errnos treated as transient at `src/server/create_db.py` line 31. -/
def transientErrnos : List Nat := [EBUSY, EACCES, EPERM]

/-- The `for _ in range(5)` retry loop of `safe_delete_chroma`
(`src/server/create_db.py` lines 26-35).  `script i` is the outcome of the
i-th `shutil.rmtree` call: `none` = success, `some e` = `OSError` with errno
`e`.  The result models the function's observable behaviour: `.error e` is a
re-raised `OSError`; `.ok (deleted, sleeps)` is a normal return, where
`deleted` records whether the directory was actually removed and `sleeps`
counts the `time.sleep(0.5)` calls performed.  When the loop runs out of
attempts it falls off the end of the `for` and returns normally with the
directory still present. -/
def delete_loop (script : Nat → Option Nat) :
    Nat → Nat → Nat → Except Nat (Bool × Nat)
  | 0, _, sleeps => .ok (false, sleeps)
  | n + 1, i, sleeps =>
    match script i with
    | none => .ok (true, sleeps)
    | some e =>
      if e ∈ transientErrnos then delete_loop script n (i + 1) (sleeps + 1)
      else .error e

/-- `safe_delete_chroma` (`src/server/create_db.py` lines 21-35). -/
def safe_delete_chroma (pathExists : Bool) (script : Nat → Option Nat) :
    Except Nat (Bool × Nat) :=
  if pathExists then delete_loop script 5 0 0 else .ok (true, 0)

theorem delete_loop_all_transient (script : Nat → Option Nat) :
    ∀ (n i s : Nat),
      (∀ j, j < n → ∃ e, script (i + j) = some e ∧ e ∈ transientErrnos) →
      delete_loop script n i s = .ok (false, s + n) := by
  intro n
  induction n with
  | zero => intro i s h; simp [delete_loop]
  | succ m ih =>
    intro i s h
    rcases h 0 (Nat.succ_pos m) with ⟨e, he, hmem⟩
    rw [Nat.add_zero] at he
    simp only [delete_loop, he]
    rw [if_pos hmem, ih (i + 1) (s + 1) ?_]
    · have hs : s + 1 + m = s + (m + 1) := by omega
      rw [hs]
    · intro j hj
      rcases h (j + 1) (by omega) with ⟨e2, he2, hm2⟩
      refine ⟨e2, ?_, hm2⟩
      rw [show i + 1 + j = i + (j + 1) by omega]
      exact he2

theorem delete_loop_success (script : Nat → Option Nat) :
    ∀ (k n i s : Nat), k < n → script (i + k) = none →
      (∀ j, j < k → ∃ e, script (i + j) = some e ∧ e ∈ transientErrnos) →
      delete_loop script n i s = .ok (true, s + k) := by
  intro k
  induction k with
  | zero =>
    intro n i s hn h0 _
    cases n with
    | zero => omega
    | succ m =>
      rw [Nat.add_zero] at h0
      simp [delete_loop, h0]
  | succ kk ih =>
    intro n i s hn hk htr
    cases n with
    | zero => omega
    | succ m =>
      rcases htr 0 (by omega) with ⟨e, he, hmem⟩
      rw [Nat.add_zero] at he
      simp only [delete_loop, he]
      rw [if_pos hmem, ih m (i + 1) (s + 1) (by omega) ?_ ?_]
      · have hs : s + 1 + kk = s + (kk + 1) := by omega
        rw [hs]
      · rw [show i + 1 + kk = i + (kk + 1) by omega]
        exact hk
      · intro j hj
        rcases htr (j + 1) (by omega) with ⟨e2, he2, hm2⟩
        refine ⟨e2, ?_, hm2⟩
        rw [show i + 1 + j = i + (j + 1) by omega]
        exact he2

theorem delete_loop_raise (script : Nat → Option Nat) :
    ∀ (k n i s : Nat) (e : Nat), k < n → script (i + k) = some e →
      e ∉ transientErrnos →
      (∀ j, j < k → ∃ e2, script (i + j) = some e2 ∧ e2 ∈ transientErrnos) →
      delete_loop script n i s = .error e := by
  intro k
  induction k with
  | zero =>
    intro n i s e hn h0 hne _
    cases n with
    | zero => omega
    | succ m =>
      rw [Nat.add_zero] at h0
      simp only [delete_loop, h0]
      rw [if_neg hne]
  | succ kk ih =>
    intro n i s e hn hk hne htr
    cases n with
    | zero => omega
    | succ m =>
      rcases htr 0 (by omega) with ⟨e2, he2, hm2⟩
      rw [Nat.add_zero] at he2
      simp only [delete_loop, he2]
      rw [if_pos hm2]
      refine ih m (i + 1) (s + 1) e (by omega) ?_ hne ?_
      · rw [show i + 1 + kk = i + (kk + 1) by omega]
        exact hk
      · intro j hj
        rcases htr (j + 1) (by omega) with ⟨e3, he3, hm3⟩
        refine ⟨e3, ?_, hm3⟩
        rw [show i + 1 + j = i + (j + 1) by omega]
        exact he3

/-- C5 counterexample: when all 5 `rmtree` attempts fail with the transient
errno `EBUSY`, `safe_delete_chroma` returns normally (`.ok`) with the
directory still present and 5 sleeps performed — the exhausted retry budget
is not fatal: the `for` loop simply ends and `save_to_chroma` proceeds to
build on top of the undeleted directory. -/
theorem safe_delete_exhaustion_counterexample :
    safe_delete_chroma true (fun _ => some EBUSY) = .ok (false, 5) := by
  rfl

/-- C5 (amended): during index deletion, transient file-lock errors (EBUSY,
EACCES, EPERM) are retried, for at most 5 `rmtree` attempts in total, with
one fixed 0.5-second sleep after each failed transient attempt, and are not
surfaced within the retry budget; if all 5 attempts fail transiently the
function returns normally without raising (the deletion failure is silently
swallowed and the rebuild proceeds); any other OS error is raised to the
caller immediately. -/
theorem safe_delete_retry_semantics (script : Nat → Option Nat) :
    ((∀ j, j < 5 → ∃ e, script j = some e ∧ e ∈ transientErrnos) →
      safe_delete_chroma true script = .ok (false, 5)) ∧
    (∀ k, k < 5 → script k = none →
      (∀ j, j < k → ∃ e, script j = some e ∧ e ∈ transientErrnos) →
      safe_delete_chroma true script = .ok (true, k)) ∧
    (∀ k e, k < 5 → script k = some e → e ∉ transientErrnos →
      (∀ j, j < k → ∃ e2, script j = some e2 ∧ e2 ∈ transientErrnos) →
      safe_delete_chroma true script = .error e) := by
  refine ⟨?_, ?_, ?_⟩
  · intro h
    rw [safe_delete_chroma, if_pos rfl]
    have := delete_loop_all_transient script 5 0 0 (by simpa using h)
    simpa using this
  · intro k hk h0 htr
    rw [safe_delete_chroma, if_pos rfl]
    have := delete_loop_success script k 5 0 0 hk (by simpa using h0)
      (by simpa using htr)
    simpa using this
  · intro k e hk hke hne htr
    rw [safe_delete_chroma, if_pos rfl]
    exact delete_loop_raise script k 5 0 0 e hk (by simpa using hke) hne
      (by simpa using htr)

/-- A deletion script that fails transiently twice and then succeeds. -/
def twoBusyScript : Nat → Option Nat :=
  fun i => if i < 2 then some EBUSY else none

/-- Witness for C5 at a concrete input: two EBUSY failures followed by a
successful deletion give a normal return with the directory removed after
exactly two 0.5-second sleeps. -/
theorem safe_delete_retry_semantics_witness :
    safe_delete_chroma true twoBusyScript = .ok (true, 2) :=
  (safe_delete_retry_semantics twoBusyScript).2.1 2 (by omega) rfl
    (by
      intro j hj
      refine ⟨EBUSY, ?_, by decide⟩
      interval_cases j <;> rfl)

/-! ## Metadata extraction (`src/server/app.py`, `extract_title_and_abstract`) -/

/-- Python `s.split(sep, 1)[1]` for a non-empty separator: the suffix after
the first occurrence of `pat`, or `none` if `pat` does not occur. -/
def splitAfterFirst (pat : Text) : Text → Option Text
  | [] => if pat.isEmpty then some [] else none
  | c :: rest =>
    if pat.isPrefixOf (c :: rest) then some ((c :: rest).drop pat.length)
    else splitAfterFirst pat rest

/-- Python `s.split(sep, 1)[0]`: the prefix before the first occurrence of
`pat` (the whole string if `pat` does not occur). -/
def splitBeforeFirst (pat : Text) : Text → Text
  | [] => []
  | c :: rest =>
    if pat.isPrefixOf (c :: rest) then []
    else c :: splitBeforeFirst pat rest

def abstractToken : Text := "abstract".toList

def doubleNewline : Text := ['\n', '\n']

/-- The abstract scan applied to one piece of page text
(`src/server/app.py` lines 93-95, repeated verbatim on OCR text at lines
104-106): if the token "abstract" occurs in the lower-cased text, take
everything after its first occurrence, stripped, up to the next blank-line
paragraph break, stripped. -/
def findAbstract (pageText : Text) : Option Text :=
  if isSubstr abstractToken (lower pageText) then
    match splitAfterFirst abstractToken (lower pageText) with
    | some s => some (trim (splitBeforeFirst doubleNewline (trim s)))
    | none => none
  else none

/-- Python `s.split('\n')`. -/
def splitLines : Text → List Text
  | [] => [[]]
  | c :: rest =>
    if c = '\n' then [] :: splitLines rest
    else
      match splitLines rest with
      | [] => [[c]]
      | l :: ls => (c :: l) :: ls

/-- Lines 86-91: the first line whose strip is non-blank, stripped; `[]` if
every line is blank. -/
def firstNonBlankLine (t : Text) : Text :=
  match (splitLines t).find? (fun l => !(trim l).isEmpty) with
  | some l => trim l
  | none => []

/-- One PDF page as seen by the extractor: `direct` is the result of
`page.extract_text()` (`[]` models both `None` and the empty string, which
are equally falsy at line 84); `ocrTexts` is the list of OCR texts of the
images rendered for this page (`none` models a raised and logged
conversion/OCR error, lines 108-109). -/
structure Page where
  direct : Text
  ocrTexts : Option (List Text)
  deriving DecidableEq

/-- A PDF document as seen by the extractor: `metaTitle` is the structured
metadata title (`metadata.get('title', '')`; `[]` also models a raised
metadata read, which leaves the title empty). -/
structure PdfDoc where
  metaTitle : Text
  pages : List Page
  deriving DecidableEq

/-- The OCR image loop (lines 100-107): the first image whose OCR text
contains the abstract token sets the abstract and breaks out of the image
loop. -/
def scanImages : List Text → Option Text
  | [] => none
  | t :: rest =>
    match findAbstract t with
    | some a => some a
    | none => scanImages rest

/-- The page loop of `extract_title_and_abstract` (lines 80-109), with the
running `(title, abstract)` state explicit.  Finding an abstract in directly
extracted text breaks the page loop (line 96); finding one via OCR does not
(the `break` at line 107 only leaves the image loop), and the title is only
ever assigned from directly extracted text. -/
def extractLoop : List Page → Text → Text → Text × Text
  | [], title, abstract => (title, abstract)
  | pg :: rest, title, abstract =>
    if pg.direct.isEmpty then
      match pg.ocrTexts with
      | none => extractLoop rest title abstract
      | some imgs =>
        match scanImages imgs with
        | some a => extractLoop rest title a
        | none => extractLoop rest title abstract
    else
      let title2 := if title.isEmpty then firstNonBlankLine pg.direct
        else title
      match findAbstract pg.direct with
      | some a => (title2, a)
      | none => extractLoop rest title2 abstract

/-- `extract_title_and_abstract` (`src/server/app.py` lines 67-111). -/
def extract_title_and_abstract (doc : PdfDoc) : Text × Text :=
  extractLoop (doc.pages.take 5) (trim doc.metaTitle) []

/-! ### C10: OCR never contributes to the title -/

theorem extractLoop_title_of_no_direct :
    ∀ (pages : List Page) (t a : Text),
      (∀ pg ∈ pages, pg.direct = []) → (extractLoop pages t a).1 = t := by
  intro pages
  induction pages with
  | nil => intro t a h; rfl
  | cons pg rest ih =>
    intro t a h
    have hd : pg.direct = [] := h pg (List.mem_cons_self _ _)
    simp only [extractLoop, hd, List.isEmpty_nil, if_pos]
    have hrest : ∀ q ∈ rest, q.direct = [] :=
      fun q hq => h q (List.mem_cons_of_mem _ hq)
    cases h2 : pg.ocrTexts with
    | none => simp only [h2]; exact ih t a hrest
    | some imgs =>
      simp only [h2]
      cases h3 : scanImages imgs with
      | none => simp only [h3]; exact ih t a hrest
      | some a2 => simp only [h3]; exact ih t a2 hrest

/-- C10: the OCR fallback contributes only to the abstract, never to the
title: when the structured metadata title is blank and none of the first 5
pages yields directly extractable text, the returned title is empty, whatever
text OCR recognised. -/
theorem extract_title_empty_without_direct_text (doc : PdfDoc)
    (hmeta : trim doc.metaTitle = [])
    (hdirect : ∀ pg ∈ doc.pages.take 5, pg.direct = []) :
    (extract_title_and_abstract doc).1 = [] := by
  rw [extract_title_and_abstract, extractLoop_title_of_no_direct _ _ _ hdirect,
    hmeta]

/-- A document with no metadata title, no directly extractable text, and OCR
text that contains non-blank lines (and an abstract). -/
def ocrOnlyDoc : PdfDoc :=
  ⟨[], [⟨[], some ["A Real Looking Title\nAbstract Found Here".toList]⟩]⟩

/-- Witness for C10 at a concrete input: OCR recognises non-blank text, yet
the returned title is empty. -/
theorem extract_title_empty_without_direct_text_witness :
    (extract_title_and_abstract ocrOnlyDoc).1 = [] :=
  extract_title_empty_without_direct_text ocrOnlyDoc (by decide) (by decide)

/-! ### C9: the abstract is computed from lower-cased text -/

theorem pairs_snd_not_upper :
    ∀ pr ∈ upperLowerPairs, isUpperAscii pr.2 = false := by
  decide

theorem lowerChar_not_upper (c : Char) : isUpperAscii (lowerChar c) = false := by
  rw [lowerChar]
  cases h : upperLowerPairs.find? (fun p => p.1 = c) with
  | none =>
    simp only
    rw [isUpperAscii, List.any_eq_false]
    intro pr hpr
    simpa using List.find?_eq_none.mp h pr hpr
  | some pr =>
    simp only
    exact pairs_snd_not_upper pr (List.mem_of_find?_eq_some h)

theorem mem_lower_not_upper {c : Char} {t : Text} (h : c ∈ lower t) :
    isUpperAscii c = false := by
  rcases List.mem_map.mp h with ⟨c0, _, rfl⟩
  exact lowerChar_not_upper c0

theorem mem_of_mem_trim {c : Char} : ∀ {t : Text}, c ∈ trim t → c ∈ t := by
  intro t h
  rw [trim, trimRight] at h
  rcases List.mem_reverse.mp h with h2
  have h3 := (List.dropWhile_sublist isSpaceChar).mem h2
  have h4 := List.mem_reverse.mp h3
  exact (List.dropWhile_sublist isSpaceChar).mem h4

theorem mem_of_mem_splitBeforeFirst {c : Char} (pat : Text) :
    ∀ {t : Text}, c ∈ splitBeforeFirst pat t → c ∈ t := by
  intro t
  induction t with
  | nil => intro h; cases h
  | cons c0 rest ih =>
    intro h
    rw [splitBeforeFirst] at h
    split at h
    · cases h
    · rcases List.mem_cons.mp h with rfl | h
      · exact List.mem_cons_self _ _
      · exact List.mem_cons_of_mem _ (ih h)

theorem mem_of_splitAfterFirst {c : Char} (pat : Text) :
    ∀ {t s : Text}, splitAfterFirst pat t = some s → c ∈ s → c ∈ t := by
  intro t
  induction t with
  | nil =>
    intro s h hc
    rw [splitAfterFirst] at h
    split at h
    · cases h; cases hc
    · cases h
  | cons c0 rest ih =>
    intro s h hc
    rw [splitAfterFirst] at h
    split at h
    · cases h
      exact List.mem_of_mem_drop hc
    · exact List.mem_cons_of_mem _ (ih h hc)

theorem findAbstract_not_upper {t a : Text} (h : findAbstract t = some a) :
    ∀ c ∈ a, isUpperAscii c = false := by
  intro c hc
  rw [findAbstract] at h
  split at h
  · cases h2 : splitAfterFirst abstractToken (lower t) with
    | none => rw [h2] at h; cases h
    | some s =>
      rw [h2] at h
      cases h
      have hs : c ∈ s :=
        mem_of_mem_trim (mem_of_mem_splitBeforeFirst doubleNewline
          (mem_of_mem_trim hc))
      exact mem_lower_not_upper (mem_of_splitAfterFirst abstractToken h2 hs)
  · cases h

theorem scanImages_not_upper :
    ∀ {imgs : List Text} {a : Text}, scanImages imgs = some a →
      ∀ c ∈ a, isUpperAscii c = false := by
  intro imgs
  induction imgs with
  | nil => intro a h; cases h
  | cons t rest ih =>
    intro a h
    rw [scanImages] at h
    cases h2 : findAbstract t with
    | some a2 =>
      rw [h2] at h
      cases h
      exact findAbstract_not_upper h2
    | none =>
      rw [h2] at h
      exact ih h

theorem extractLoop_abstract_not_upper :
    ∀ (pages : List Page) (t a : Text),
      (∀ c ∈ a, isUpperAscii c = false) →
      ∀ c ∈ (extractLoop pages t a).2, isUpperAscii c = false := by
  intro pages
  induction pages with
  | nil => intro t a h; exact h
  | cons pg rest ih =>
    intro t a h
    rw [extractLoop]
    split
    · cases h2 : pg.ocrTexts with
      | none => simp only [h2]; exact ih t a h
      | some imgs =>
        simp only [h2]
        cases h3 : scanImages imgs with
        | none => simp only [h3]; exact ih t a h
        | some a2 => simp only [h3]; exact ih t a2 (scanImages_not_upper h3)
    · cases h4 : findAbstract pg.direct with
      | some a2 => simp only [h4]; exact findAbstract_not_upper h4
      | none => simp only [h4]; exact ih _ a h

/-- C9: the abstract returned by `extract_title_and_abstract` is computed
from the lower-cased page text (whether directly extracted or OCR), so it
contains no ASCII upper-case letter and in particular never equals any
passage that contains one. -/
theorem extract_abstract_lowercased (doc : PdfDoc) :
    (∀ c ∈ (extract_title_and_abstract doc).2, isUpperAscii c = false) ∧
    ∀ s : Text, (∃ c ∈ s, isUpperAscii c = true) →
      (extract_title_and_abstract doc).2 ≠ s := by
  have h1 : ∀ c ∈ (extract_title_and_abstract doc).2, isUpperAscii c = false :=
    extractLoop_abstract_not_upper _ _ [] (by intro c hc; cases hc)
  refine ⟨h1, ?_⟩
  rintro s ⟨c, hcs, hup⟩ heq
  rw [heq] at h1
  rw [h1 c hcs] at hup
  exact Bool.false_ne_true hup

/-- A document whose first page carries a mixed-case abstract passage. -/
def mixedCaseDoc : PdfDoc :=
  ⟨[], [⟨"A Title\nABSTRACT This Is Mixed\n\nBody text".toList, none⟩]⟩

/-- Witness for C9 at a concrete input: the original mixed-case passage
"This Is Mixed" contains upper-case letters, so the returned abstract (which
is "this is mixed") differs from it. -/
theorem extract_abstract_lowercased_witness :
    (∀ c ∈ (extract_title_and_abstract mixedCaseDoc).2,
        isUpperAscii c = false) ∧
    (extract_title_and_abstract mixedCaseDoc).2 ≠ "This Is Mixed".toList :=
  ⟨(extract_abstract_lowercased mixedCaseDoc).1,
   (extract_abstract_lowercased mixedCaseDoc).2 "This Is Mixed".toList
     (by decide)⟩

/-! ### C7: there is no paragraph fallback for a missing abstract -/

/-- Python-style whitespace tokenisation: split on whitespace characters. -/
def splitOnSpace : Text → List Text
  | [] => [[]]
  | c :: rest =>
    if isSpaceChar c then [] :: splitOnSpace rest
    else
      match splitOnSpace rest with
      | [] => [[c]]
      | l :: ls => (c :: l) :: ls

/-- Whitespace-separated words of a text. -/
def wordsOf (t : Text) : List Text :=
  (splitOnSpace t).filter (fun w => !w.isEmpty)

/-- The abstract fallback described by the spec — "the first
blank-line-delimited paragraph of page 1 of the raw extracted text, capped at
200 words" — written from the spec's words for comparison; no such fallback
exists in `extract_title_and_abstract` in `src/server/app.py`. -/
def specFallbackAbstract (page1 : Text) : Text :=
  List.intercalate [' ']
    ((wordsOf (splitBeforeFirst doubleNewline page1)).take 200)

/-- A document none of whose pages contains the token "abstract". -/
def noAbstractDoc : PdfDoc :=
  ⟨"Some Title".toList,
   [⟨"Hello intro paragraph\nmore text".toList, none⟩]⟩

/-- C7 counterexample: with no abstract token anywhere,
`extract_title_and_abstract` returns the empty abstract, while the
spec-described fallback (first blank-line paragraph of page 1, capped at 200
words) is non-empty — so the function does not return that fallback. -/
theorem extract_no_paragraph_fallback_counterexample :
    (extract_title_and_abstract noAbstractDoc).2 = [] ∧
    specFallbackAbstract "Hello intro paragraph\nmore text".toList =
      "Hello intro paragraph more text".toList ∧
    (extract_title_and_abstract noAbstractDoc).2 ≠
      specFallbackAbstract "Hello intro paragraph\nmore text".toList := by
  decide

theorem extractLoop_abstract_of_no_token :
    ∀ (pages : List Page) (t a : Text),
      (∀ pg ∈ pages, findAbstract pg.direct = none ∧
        ∀ imgs, pg.ocrTexts = some imgs → scanImages imgs = none) →
      (extractLoop pages t a).2 = a := by
  intro pages
  induction pages with
  | nil => intro t a h; rfl
  | cons pg rest ih =>
    intro t a h
    have hpg := h pg (List.mem_cons_self _ _)
    have hrest : ∀ q ∈ rest, findAbstract q.direct = none ∧
        ∀ imgs, q.ocrTexts = some imgs → scanImages imgs = none :=
      fun q hq => h q (List.mem_cons_of_mem _ hq)
    rw [extractLoop]
    split
    · cases h2 : pg.ocrTexts with
      | none => simp only [h2]; exact ih t a hrest
      | some imgs =>
        simp only [h2, hpg.2 imgs h2]
        exact ih t a hrest
    · simp only [hpg.1]
      exact ih _ a hrest

/-- C7 (amended): when the abstract-token scan finds no abstract on any of
the first 5 pages (directly extracted or OCR text), metadata extraction
returns the empty abstract: no paragraph fallback exists in the code. -/
theorem extract_abstract_empty_of_no_token (doc : PdfDoc)
    (h : ∀ pg ∈ doc.pages.take 5, findAbstract pg.direct = none ∧
      ∀ imgs, pg.ocrTexts = some imgs → scanImages imgs = none) :
    (extract_title_and_abstract doc).2 = [] :=
  extractLoop_abstract_of_no_token _ _ [] h

/-- Witness for C7's amended claim at a concrete input. -/
theorem extract_abstract_empty_of_no_token_witness :
    (extract_title_and_abstract noAbstractDoc).2 = [] :=
  extract_abstract_empty_of_no_token noAbstractDoc (by decide)

/-! ## Streaming answer pipeline (`src/server/app.py`, `generate`) -/

inductive Role
  | user
  | assistant
  deriving DecidableEq, Repr

/-- One conversation turn, as stored in `session['history']`. -/
structure Turn where
  role : Role
  content : Text
  deriving DecidableEq, Repr

/-- One step of the control flow inside the `try` of `generate`
(`src/server/app.py` lines 360-421): a stream chunk whose `delta.content`
may be `None` (lines 407-409), or an exception raised at that point of the
pipeline (caught at line 423).  A `fail` in first position models a failure
during setup, e.g. in `query_collection`. -/
inductive StreamItem
  | chunk (content : Option Text)
  | fail (msg : Text)
  deriving DecidableEq, Repr

def StreamItem.isFail : StreamItem → Bool
  | .fail _ => true
  | .chunk _ => false

/-- A server-sent event, as yielded by `generate`. -/
inductive Event
  | streamE (content : Text)
  | finalE (content : Text)
  | errorE (content : Text)
  deriving DecidableEq, Repr

def Event.isError : Event → Bool
  | .errorE _ => true
  | _ => false

/-- The body of `generate` (`src/server/app.py` lines 359-425): consume the
stream in order; each chunk with content yields a `stream` event and is
accumulated into `full_response`; the first exception yields exactly one
`error` event and stops, leaving the session history untouched; on natural
exhaustion the `final` event carrying the joined, trimmed response is
yielded and only then is the `(user, assistant)` pair appended to history. -/
def generateGo (userMsg : Text) (history : List Turn) :
    List StreamItem → List Text → List Event → List Event × List Turn
  | .fail m :: _, _, evs => (evs ++ [.errorE m], history)
  | .chunk none :: rest, acc, evs => generateGo userMsg history rest acc evs
  | .chunk (some c) :: rest, acc, evs =>
    generateGo userMsg history rest (acc ++ [c]) (evs ++ [.streamE c])
  | [], acc, evs =>
    (evs ++ [.finalE (trim acc.flatten)],
     history ++ [⟨.user, userMsg⟩, ⟨.assistant, trim acc.flatten⟩])

/-- `generate` (`src/server/app.py` lines 359-425), returning the emitted
event sequence and the resulting session history. -/
def generate (userMsg : Text) (history : List Turn)
    (items : List StreamItem) : List Event × List Turn :=
  generateGo userMsg history items [] []

/-- The `stream` events of a clean run. -/
def chunkEvents : List StreamItem → List Event :=
  List.filterMap fun it =>
    match it with
    | .chunk (some c) => some (.streamE c)
    | _ => none

/-- The accumulated `full_response` fragments of a clean run. -/
def chunkContents : List StreamItem → List Text :=
  List.filterMap fun it =>
    match it with
    | .chunk (some c) => some c
    | _ => none

theorem generateGo_clean (u : Text) (h : List Turn) :
    ∀ (items : List StreamItem) (acc : List Text) (evs : List Event),
      (∀ it ∈ items, it.isFail = false) →
      generateGo u h items acc evs =
        (evs ++ chunkEvents items ++
          [.finalE (trim (acc ++ chunkContents items).flatten)],
         h ++ [⟨.user, u⟩,
               ⟨.assistant, trim (acc ++ chunkContents items).flatten⟩]) := by
  intro items
  induction items with
  | nil =>
    intro acc evs hclean
    simp [generateGo, chunkEvents, chunkContents]
  | cons it rest ih =>
    intro acc evs hclean
    have hrest : ∀ x ∈ rest, x.isFail = false :=
      fun x hx => hclean x (List.mem_cons_of_mem _ hx)
    cases it with
    | fail m =>
      have := hclean (.fail m) (List.mem_cons_self _ _)
      simp [StreamItem.isFail] at this
    | chunk oc =>
      cases oc with
      | none =>
        rw [generateGo, ih acc evs hrest]
        simp [chunkEvents, chunkContents]
      | some c =>
        rw [generateGo, ih _ _ hrest]
        simp [chunkEvents, chunkContents]

theorem generateGo_fail (u : Text) (h : List Turn) :
    ∀ (items : List StreamItem) (acc : List Text) (evs : List Event),
      (∃ it ∈ items, it.isFail = true) →
      ∃ m es, generateGo u h items acc evs = (evs ++ es ++ [.errorE m], h) ∧
        ∀ e ∈ es, e.isError = false := by
  intro items
  induction items with
  | nil =>
    intro acc evs hfail
    rcases hfail with ⟨it, hmem, _⟩
    cases hmem
  | cons it rest ih =>
    intro acc evs hfail
    cases it with
    | fail m =>
      refine ⟨m, [], ?_, by intro e he; cases he⟩
      rw [generateGo]
      simp
    | chunk oc =>
      have hrest : ∃ x ∈ rest, x.isFail = true := by
        rcases hfail with ⟨x, hmem, hx⟩
        rcases List.mem_cons.mp hmem with rfl | hmem
        · simp [StreamItem.isFail] at hx
        · exact ⟨x, hmem, hx⟩
      cases oc with
      | none =>
        rw [generateGo]
        exact ih acc evs hrest
      | some c =>
        rw [generateGo]
        rcases ih (acc ++ [c]) (evs ++ [.streamE c]) hrest
          with ⟨m, es, heq, hes⟩
        refine ⟨m, .streamE c :: es, ?_, ?_⟩
        · rw [heq]; simp
        · intro e he
          rcases List.mem_cons.mp he with rfl | he
          · rfl
          · exact hes e he

/-- C8: on a clean run, `generate` emits the stream events then one final
event, and appends exactly the `(user, assistant)` pair to history; if the
pipeline fails at any point, exactly one error event is emitted, it is the
last event, and the prior history is left unchanged. -/
theorem generate_history_semantics (u : Text) (h : List Turn)
    (items : List StreamItem) :
    ((∀ it ∈ items, it.isFail = false) →
      generate u h items =
        (chunkEvents items ++ [.finalE (trim (chunkContents items).flatten)],
         h ++ [⟨.user, u⟩, ⟨.assistant, trim (chunkContents items).flatten⟩])) ∧
    ((∃ it ∈ items, it.isFail = true) →
      (generate u h items).2 = h ∧
      (generate u h items).1.countP Event.isError = 1 ∧
      ∃ m, (generate u h items).1.getLast? = some (.errorE m)) := by
  constructor
  · intro hclean
    rw [generate, generateGo_clean u h items [] [] hclean]
    simp
  · intro hfail
    rcases generateGo_fail u h items [] [] hfail with ⟨m, es, heq, hes⟩
    rw [generate, heq]
    refine ⟨rfl, ?_, ⟨m, ?_⟩⟩
    · simp only [List.nil_append, List.countP_append]
      rw [List.countP_eq_zero.mpr (by intro e he; simpa using hes e he)]
      rfl
    · simp

/-- Witness for C8 at concrete inputs: a clean two-chunk stream appends the
pair and ends with the final event; a stream failing after one chunk leaves
history unchanged and ends with exactly one error event. -/
theorem generate_history_semantics_witness :
    generate "q".toList []
        [.chunk (some "Hi ".toList), .chunk none, .chunk (some "there".toList)] =
      (chunkEvents [.chunk (some "Hi ".toList), .chunk none,
          .chunk (some "there".toList)] ++
        [.finalE (trim (chunkContents [.chunk (some "Hi ".toList), .chunk none,
          .chunk (some "there".toList)]).flatten)],
       [] ++ [⟨.user, "q".toList⟩,
        ⟨.assistant, trim (chunkContents [.chunk (some "Hi ".toList),
          .chunk none, .chunk (some "there".toList)]).flatten⟩]) ∧
    ((generate "q".toList [⟨.user, "old".toList⟩]
        [.chunk (some "x".toList), .fail "boom".toList]).2 =
      [⟨.user, "old".toList⟩] ∧
     (generate "q".toList [⟨.user, "old".toList⟩]
        [.chunk (some "x".toList), .fail "boom".toList]).1.countP
          Event.isError = 1 ∧
     ∃ m, (generate "q".toList [⟨.user, "old".toList⟩]
        [.chunk (some "x".toList), .fail "boom".toList]).1.getLast? =
          some (.errorE m)) :=
  ⟨(generate_history_semantics "q".toList []
      [.chunk (some "Hi ".toList), .chunk none,
       .chunk (some "there".toList)]).1 (by decide),
   (generate_history_semantics "q".toList [⟨.user, "old".toList⟩]
      [.chunk (some "x".toList), .fail "boom".toList]).2 (by decide)⟩

/-! ## Candidate ranking (spec §4.5; `search_similar_articles_from_pdf`)

The ranked search mode is called from `src/server/main.py` line 140
(`search_similar_articles_from_pdf(file_path, title)`), but its definition is
not among the files under `src/`; the definitions below are modelled from the
spec's words. -/

/-- Python `s.split(',')`. -/
def splitOnComma : Text → List Text
  | [] => [[]]
  | c :: rest =>
    if c = ',' then [] :: splitOnComma rest
    else
      match splitOnComma rest with
      | [] => [[c]]
      | l :: ls => (c :: l) :: ls

/-- Modelled from the spec: the comma-separated keyword-basis terms
("count how many comma-separated keyword-basis terms ... appear in the
candidate's title"). -/
def keywordTerms (basis : Text) : List Text :=
  ((splitOnComma basis).map trim).filter (fun t => !t.isEmpty)

/-- Modelled from the spec: the number of keyword-basis terms appearing in
the candidate's title (case-insensitive substring match). -/
def matchCount (basis title : Text) : Nat :=
  (keywordTerms basis).countP (fun t => isSubstr (lower t) (lower title))

/-- Modelled from the spec: lower-cased whitespace-tokenised word set. -/
def wordSet (t : Text) : Finset Text :=
  (wordsOf (lower t)).toFinset

/-- Modelled from the spec: the Jaccard word-overlap fallback score (size of
word-set intersection over size of word-set union; 0 if either set is
empty). -/
def jaccard (basis title : Text) : ℚ :=
  if wordSet basis = ∅ ∨ wordSet title = ∅ then 0
  else ((wordSet basis ∩ wordSet title).card : ℚ) /
    ((wordSet basis ∪ wordSet title).card : ℚ)

/-- Modelled from the spec: a candidate's ranking score — the keyword-match
count, or the Jaccard fallback when that count is zero. -/
def score (basis : Text) (a : Article) : ℚ :=
  if matchCount basis a.title = 0 then jaccard basis a.title
  else (matchCount basis a.title : ℚ)

/-- Modelled from the spec: stable insertion of a candidate into a
descending-sorted list — strictly higher-scored candidates stay ahead, and a
candidate goes before every equal-scored candidate that followed it in merge
order. -/
def insertDesc (basis : Text) (a : Article) : List Article → List Article
  | [] => [a]
  | b :: rest =>
    if score basis a < score basis b then b :: insertDesc basis a rest
    else a :: b :: rest

/-- Modelled from the spec: stable sort, descending by score. -/
def sortByScore (basis : Text) : List Article → List Article
  | [] => []
  | a :: rest => insertDesc basis a (sortByScore basis rest)

/-- Modelled from the spec: "Sort descending by score (stable: ties preserve
merge order) and return the top 5." -/
def rankArticles (basis : Text) (arts : List Article) : List Article :=
  (sortByScore basis arts).take 5

theorem jaccard_le_one (basis title : Text) : jaccard basis title ≤ 1 := by
  rw [jaccard]
  split
  · norm_num
  · apply div_le_one_of_le₀
    · exact_mod_cast Finset.card_le_card Finset.inter_subset_union
    · positivity

theorem score_lt_of_matches {basis : Text} {a b : Article}
    (ha : matchCount basis a.title = 2) (hb : matchCount basis b.title = 0) :
    score basis b < score basis a := by
  have h2 : score basis a = ((2 : Nat) : ℚ) := by
    rw [score, if_neg (by omega), ha]
  have h0 : score basis b = jaccard basis b.title := by
    rw [score, if_pos hb]
  rw [h2, h0]
  calc jaccard basis b.title ≤ 1 := jaccard_le_one _ _
    _ < ((2 : Nat) : ℚ) := by norm_num

theorem mem_insertDesc {basis : Text} {a y : Article} :
    ∀ {l : List Article}, y ∈ insertDesc basis a l → y = a ∨ y ∈ l := by
  intro l
  induction l with
  | nil =>
    intro h
    rcases List.mem_singleton.mp h with rfl
    exact Or.inl rfl
  | cons b rest ih =>
    intro h
    rw [insertDesc] at h
    split at h
    · rcases List.mem_cons.mp h with rfl | h
      · exact Or.inr (List.mem_cons_self _ _)
      · rcases ih h with rfl | h
        · exact Or.inl rfl
        · exact Or.inr (List.mem_cons_of_mem _ h)
    · rcases List.mem_cons.mp h with rfl | h
      · exact Or.inl rfl
      · exact Or.inr h

theorem insertDesc_pairwise {basis : Text} {a : Article} :
    ∀ {l : List Article},
      l.Pairwise (fun x y => score basis y ≤ score basis x) →
      (insertDesc basis a l).Pairwise
        (fun x y => score basis y ≤ score basis x) := by
  intro l
  induction l with
  | nil => intro h; exact List.pairwise_singleton _ _
  | cons b rest ih =>
    intro h
    rcases List.pairwise_cons.mp h with ⟨hb, hrest⟩
    rw [insertDesc]
    split
    · rename_i hab
      refine List.pairwise_cons.mpr ⟨?_, ih hrest⟩
      intro y hy
      rcases mem_insertDesc hy with rfl | hy
      · exact le_of_lt hab
      · exact hb y hy
    · rename_i hab
      push_neg at hab
      refine List.pairwise_cons.mpr ⟨?_, h⟩
      intro y hy
      rcases List.mem_cons.mp hy with rfl | hy
      · exact hab
      · exact le_trans (hb y hy) hab

theorem sortByScore_pairwise (basis : Text) :
    ∀ (l : List Article),
      (sortByScore basis l).Pairwise
        (fun x y => score basis y ≤ score basis x) := by
  intro l
  induction l with
  | nil => exact List.Pairwise.nil
  | cons a rest ih =>
    rw [sortByScore]
    exact insertDesc_pairwise ih

theorem rankArticles_sorted (basis : Text) (arts : List Article) :
    (rankArticles basis arts).Pairwise
      (fun a b => score basis b ≤ score basis a) :=
  List.Pairwise.sublist (List.take_sublist _ _) (sortByScore_pairwise basis arts)

/-- C6 (spec-modelled): the ranked result is sorted descending by the score
(keyword-match count, Jaccard word-overlap fallback when the count is zero),
so for the same query an article whose title contains 2 of the 3
keyword-basis terms is placed strictly before one containing 0. -/
theorem rankArticles_two_matches_above_zero (basis : Text)
    (arts : List Article) (hterms : (keywordTerms basis).length = 3) :
    (rankArticles basis arts).Pairwise
      (fun a b => score basis b ≤ score basis a) ∧
    ∀ (i j : Fin (rankArticles basis arts).length),
      matchCount basis ((rankArticles basis arts).get i).title = 2 →
      matchCount basis ((rankArticles basis arts).get j).title = 0 →
      (i : ℕ) < (j : ℕ) := by
  refine ⟨rankArticles_sorted basis arts, ?_⟩
  intro i j hi hj
  rcases lt_trichotomy (i : ℕ) (j : ℕ) with h | h | h
  · exact h
  · exfalso
    have : i = j := Fin.ext h
    rw [this, hj] at hi
    omega
  · exfalso
    have hpw := List.pairwise_iff_get.mp (rankArticles_sorted basis arts)
      j i (by omega)
    have hlt := score_lt_of_matches hi hj
    exact absurd hpw (not_le.mpr hlt)

def rankBasis : Text := "sepsis, biomarker, icu".toList

/-- A candidate whose title contains none of the basis terms (and no words at
all, so the Jaccard fallback is 0 by its empty-set case). -/
def zeroMatchArticle : Article :=
  ⟨[], [], []⟩

def twoMatchArticle : Article :=
  ⟨"Sepsis biomarker review".toList, [], []⟩

/-- Witness for C6 at a concrete input: with basis
"sepsis, biomarker, icu", the 2-match article is ranked strictly before the
0-match article even though the 0-match article comes first in merge
order. -/
theorem rankArticles_two_matches_above_zero_witness :
    (rankArticles rankBasis [zeroMatchArticle, twoMatchArticle]).Pairwise
      (fun a b => score rankBasis b ≤ score rankBasis a) ∧ (0 : ℕ) < 1 :=
  ⟨(rankArticles_two_matches_above_zero rankBasis
      [zeroMatchArticle, twoMatchArticle] (by decide)).1,
   (rankArticles_two_matches_above_zero rankBasis
      [zeroMatchArticle, twoMatchArticle] (by decide)).2
      ⟨0, by decide⟩ ⟨1, by decide⟩ (by decide) (by decide)⟩

/-! ## Index lock discipline (`src/server/create_db.py`)

`save_to_chroma` (lines 38-45) and `query_collection` (lines 48-57) both
wrap their bodies in `with chroma_lock:`, the single module-level
`threading.Lock()` of line 18, shared by all sessions of the process.  We
model the process as a transition system: arbitrarily many threads, each
running either a rebuild (`save_to_chroma`) or a query
(`query_collection`); the on-disk index is `intact`, `absent`, or `torn`
(half-deleted or half-built); any interleaving of per-thread steps is
allowed. -/

inductive IndexState
  | intact
  | torn
  | absent
  deriving DecidableEq, Repr

inductive OpKind
  | rebuild
  | query
  deriving DecidableEq, Repr

/-- One thread: which operation it runs, its program counter, and — for a
query — the index state it observed while reading. -/
structure ThreadState where
  kind : OpKind
  pc : Nat
  obs : Option IndexState
  deriving DecidableEq, Repr

/-- The whole process: the single `chroma_lock` (holder's thread id, if
held), the on-disk index, and every thread's state. -/
structure SysState where
  lock : Option Nat
  index : IndexState
  threads : Nat → ThreadState

/-- The interleaving semantics.  A rebuild thread runs
`acquire; delete-start; delete-end; build-start; build-end; release`
(pc 0→6); deletion and building each pass through a `torn` intermediate
state, since `shutil.rmtree` and `Chroma.from_documents` are not atomic.  A
query thread runs `acquire; observe; release` (pc 0→3), recording the index
state it reads.  `with chroma_lock:` is the acquire/release pair on the one
`lock` cell: acquisition only succeeds when no thread holds the lock. -/
inductive Step : SysState → SysState → Prop
  | acquire (s : SysState) (i : Nat)
      (hl : s.lock = none) (hp : (s.threads i).pc = 0) :
      Step s ⟨some i, s.index,
        Function.update s.threads i { s.threads i with pc := 1 }⟩
  | deleteStart (s : SysState) (i : Nat)
      (hl : s.lock = some i) (hk : (s.threads i).kind = .rebuild)
      (hp : (s.threads i).pc = 1) :
      Step s ⟨s.lock, .torn,
        Function.update s.threads i { s.threads i with pc := 2 }⟩
  | deleteEnd (s : SysState) (i : Nat)
      (hl : s.lock = some i) (hk : (s.threads i).kind = .rebuild)
      (hp : (s.threads i).pc = 2) :
      Step s ⟨s.lock, .absent,
        Function.update s.threads i { s.threads i with pc := 3 }⟩
  | buildStart (s : SysState) (i : Nat)
      (hl : s.lock = some i) (hk : (s.threads i).kind = .rebuild)
      (hp : (s.threads i).pc = 3) :
      Step s ⟨s.lock, .torn,
        Function.update s.threads i { s.threads i with pc := 4 }⟩
  | buildEnd (s : SysState) (i : Nat)
      (hl : s.lock = some i) (hk : (s.threads i).kind = .rebuild)
      (hp : (s.threads i).pc = 4) :
      Step s ⟨s.lock, .intact,
        Function.update s.threads i { s.threads i with pc := 5 }⟩
  | releaseRebuild (s : SysState) (i : Nat)
      (hl : s.lock = some i) (hk : (s.threads i).kind = .rebuild)
      (hp : (s.threads i).pc = 5) :
      Step s ⟨none, s.index,
        Function.update s.threads i { s.threads i with pc := 6 }⟩
  | observe (s : SysState) (i : Nat)
      (hl : s.lock = some i) (hk : (s.threads i).kind = .query)
      (hp : (s.threads i).pc = 1) :
      Step s ⟨s.lock, s.index,
        Function.update s.threads i
          { s.threads i with pc := 2, obs := some s.index }⟩
  | releaseQuery (s : SysState) (i : Nat)
      (hl : s.lock = some i) (hk : (s.threads i).kind = .query)
      (hp : (s.threads i).pc = 2) :
      Step s ⟨none, s.index,
        Function.update s.threads i { s.threads i with pc := 3 }⟩

/-- The last pc of an operation's critical section. -/
def pcBound : OpKind → Nat
  | .rebuild => 5
  | .query => 2

/-- The thread is inside its critical section (between acquire and
release). -/
def Active (t : ThreadState) : Prop := 1 ≤ t.pc ∧ t.pc ≤ pcBound t.kind

/-- A fresh process: lock free, index not torn, all threads at pc 0 with no
observation yet. -/
def InitOk (s : SysState) : Prop :=
  s.lock = none ∧ s.index ≠ .torn ∧
    ∀ i, (s.threads i).pc = 0 ∧ (s.threads i).obs = none

/-- The inductive invariant: every active thread holds the lock; a torn
index implies a rebuild lock-holder in its delete or build phase; no
recorded observation is torn. -/
def Inv (s : SysState) : Prop :=
  (∀ j, Active (s.threads j) → s.lock = some j) ∧
  (s.index = .torn →
    ∃ i, s.lock = some i ∧ (s.threads i).kind = .rebuild ∧
      ((s.threads i).pc = 2 ∨ (s.threads i).pc = 4)) ∧
  (∀ j v, (s.threads j).obs = some v → v ≠ .torn)

theorem Inv_init {s : SysState} (h : InitOk s) : Inv s := by
  obtain ⟨hl, hi, ht⟩ := h
  refine ⟨?_, ?_, ?_⟩
  · intro j hj
    rcases hj with ⟨hj1, _⟩
    rw [(ht j).1] at hj1
    omega
  · intro hidx
    exact absurd hidx hi
  · intro j v hobs
    rw [(ht j).2] at hobs
    exact Option.noConfusion hobs

theorem Inv_step {s s2 : SysState} (h : Inv s) (hs : Step s s2) : Inv s2 := by
  obtain ⟨h1, h2, h3⟩ := h
  cases hs with
  | acquire i hl hp =>
    refine ⟨?_, ?_, ?_⟩
    · intro j hj
      by_cases hij : j = i
      · subst hij; rfl
      · simp only [Function.update_noteq hij] at hj
        have hlj := h1 j hj
        rw [hl] at hlj
        exact Option.noConfusion hlj
    · intro hidx
      rcases h2 hidx with ⟨k, hk1, _, _⟩
      rw [hl] at hk1
      exact Option.noConfusion hk1
    · intro j v hobs
      by_cases hij : j = i
      · subst hij
        simp only [Function.update_same] at hobs
        exact h3 _ v hobs
      · simp only [Function.update_noteq hij] at hobs
        exact h3 j v hobs
  | deleteStart i hl hk hp =>
    refine ⟨?_, ?_, ?_⟩
    · intro j hj
      by_cases hij : j = i
      · subst hij; exact hl
      · simp only [Function.update_noteq hij] at hj
        exact h1 j hj
    · intro _
      refine ⟨i, hl, ?_, ?_⟩
      · simp only [Function.update_same]; exact hk
      · simp [Function.update_same]
    · intro j v hobs
      by_cases hij : j = i
      · subst hij
        simp only [Function.update_same] at hobs
        exact h3 _ v hobs
      · simp only [Function.update_noteq hij] at hobs
        exact h3 j v hobs
  | deleteEnd i hl hk hp =>
    refine ⟨?_, ?_, ?_⟩
    · intro j hj
      by_cases hij : j = i
      · subst hij; exact hl
      · simp only [Function.update_noteq hij] at hj
        exact h1 j hj
    · intro hidx
      exact IndexState.noConfusion hidx
    · intro j v hobs
      by_cases hij : j = i
      · subst hij
        simp only [Function.update_same] at hobs
        exact h3 _ v hobs
      · simp only [Function.update_noteq hij] at hobs
        exact h3 j v hobs
  | buildStart i hl hk hp =>
    refine ⟨?_, ?_, ?_⟩
    · intro j hj
      by_cases hij : j = i
      · subst hij; exact hl
      · simp only [Function.update_noteq hij] at hj
        exact h1 j hj
    · intro _
      refine ⟨i, hl, ?_, ?_⟩
      · simp only [Function.update_same]; exact hk
      · simp [Function.update_same]
    · intro j v hobs
      by_cases hij : j = i
      · subst hij
        simp only [Function.update_same] at hobs
        exact h3 _ v hobs
      · simp only [Function.update_noteq hij] at hobs
        exact h3 j v hobs
  | buildEnd i hl hk hp =>
    refine ⟨?_, ?_, ?_⟩
    · intro j hj
      by_cases hij : j = i
      · subst hij; exact hl
      · simp only [Function.update_noteq hij] at hj
        exact h1 j hj
    · intro hidx
      exact IndexState.noConfusion hidx
    · intro j v hobs
      by_cases hij : j = i
      · subst hij
        simp only [Function.update_same] at hobs
        exact h3 _ v hobs
      · simp only [Function.update_noteq hij] at hobs
        exact h3 j v hobs
  | releaseRebuild i hl hk hp =>
    refine ⟨?_, ?_, ?_⟩
    · intro j hj
      by_cases hij : j = i
      · subst hij
        simp only [Function.update_same, Active, hk, pcBound] at hj
        omega
      · simp only [Function.update_noteq hij] at hj
        have hlj := h1 j hj
        rw [hl] at hlj
        exact absurd (Option.some.inj hlj) (fun he => hij he.symm)
    · intro hidx
      rcases h2 hidx with ⟨k, hk1, hk2, hk3⟩
      rw [hl] at hk1
      rcases Option.some.inj hk1 with rfl
      rw [hp] at hk3
      rcases hk3 with hk3 | hk3 <;> omega
    · intro j v hobs
      by_cases hij : j = i
      · subst hij
        simp only [Function.update_same] at hobs
        exact h3 j v hobs
      · simp only [Function.update_noteq hij] at hobs
        exact h3 j v hobs
  | observe i hl hk hp =>
    refine ⟨?_, ?_, ?_⟩
    · intro j hj
      by_cases hij : j = i
      · subst hij; exact hl
      · simp only [Function.update_noteq hij] at hj
        exact h1 j hj
    · intro hidx
      rcases h2 hidx with ⟨k, hk1, hk2, _⟩
      rw [hl] at hk1
      rcases Option.some.inj hk1 with rfl
      rw [hk] at hk2
      exact OpKind.noConfusion hk2
    · intro j v hobs
      by_cases hij : j = i
      · subst hij
        simp only [Function.update_same] at hobs
        have hv : v = s.index := (Option.some.inj hobs).symm
        subst hv
        intro hvt
        rcases h2 hvt with ⟨k, hk1, hk2, _⟩
        rw [hl] at hk1
        rcases Option.some.inj hk1 with rfl
        rw [hk] at hk2
        exact OpKind.noConfusion hk2
      · simp only [Function.update_noteq hij] at hobs
        exact h3 j v hobs
  | releaseQuery i hl hk hp =>
    refine ⟨?_, ?_, ?_⟩
    · intro j hj
      by_cases hij : j = i
      · subst hij
        simp only [Function.update_same, Active, hk, pcBound] at hj
        omega
      · simp only [Function.update_noteq hij] at hj
        have hlj := h1 j hj
        rw [hl] at hlj
        exact absurd (Option.some.inj hlj) (fun he => hij he.symm)
    · intro hidx
      rcases h2 hidx with ⟨k, hk1, hk2, _⟩
      rw [hl] at hk1
      rcases Option.some.inj hk1 with rfl
      rw [hk] at hk2
      exact OpKind.noConfusion hk2
    · intro j v hobs
      by_cases hij : j = i
      · subst hij
        simp only [Function.update_same] at hobs
        exact h3 j v hobs
      · simp only [Function.update_noteq hij] at hobs
        exact h3 j v hobs

/-- C1: rebuilds and queries all contend on the single process-wide lock
(the acquire/release steps of `Step` over the one `lock` cell), so along
every interleaving of rebuilds and queries from a fresh process, no query
ever observes a half-deleted or half-built (`torn`) index. -/
theorem chroma_lock_no_torn_observation (s0 s : SysState) (h0 : InitOk s0)
    (hr : Relation.ReflTransGen Step s0 s) :
    ∀ i v, (s.threads i).obs = some v → v ≠ .torn := by
  have hinv : Inv s := by
    induction hr with
    | refl => exact Inv_init h0
    | tail _ hstep ih => exact Inv_step ih hstep
  exact hinv.2.2

/-- A fresh process in which every thread is a query. -/
def initialSys : SysState := ⟨none, .intact, fun _ => ⟨.query, 0, none⟩⟩

/-- After thread 0 acquires the lock. -/
def midSys : SysState :=
  ⟨some 0, .intact, Function.update initialSys.threads 0 ⟨.query, 1, none⟩⟩

/-- After thread 0 observes the index. -/
def observedSys : SysState :=
  ⟨some 0, .intact,
   Function.update midSys.threads 0 ⟨.query, 2, some .intact⟩⟩

def stepAcquire : Step initialSys midSys :=
  Step.acquire initialSys 0 rfl rfl

def stepObserve : Step midSys observedSys :=
  Step.observe midSys 0 rfl rfl rfl

def reachObserved : Relation.ReflTransGen Step initialSys observedSys :=
  Relation.ReflTransGen.tail
    (Relation.ReflTransGen.tail Relation.ReflTransGen.refl stepAcquire)
    stepObserve

/-- Witness for C1 at a concrete run: a query acquires the lock, observes
the intact index, and the theorem yields that the observation is not
torn. -/
theorem chroma_lock_no_torn_observation_witness :
    (observedSys.threads 0).obs = some IndexState.intact ∧
      IndexState.intact ≠ IndexState.torn :=
  ⟨rfl,
   chroma_lock_no_torn_observation initialSys observedSys
     ⟨rfl, by decide, fun i => ⟨rfl, rfl⟩⟩ reachObserved 0 .intact rfl⟩

end MedAssist
